import Mathlib

/-!
Verification of the github-vec ingestion pipeline.

This file gives a shallow embedding of the core logic of the repository:

* `src/scripts/ingest.ts` — `processBatchResults`, `sha1ToUuid`,
  `parseFilename`, the `AsyncBuffer` producer/consumer queue, and the
  top-level error routing of `main`;
* `src/scripts/embed.ts` — the retry loop of `embedRealtime` and
  `BudgetExhaustedError` handling;
* `src/scripts/fetch-readmes.ts` — `ProxyPool.get`, the candidate sweep
  `tryRawFetch`, and the write/marker decision tree of `fetchAndSave`.

JavaScript strings are modelled as `List Char`; JavaScript numbers used in
the success-rate computation are modelled as `ℚ` (rational division by zero
yields `0`, which agrees with the JS `NaN >= 0.99` comparison being false).
Asynchronous code is modelled as a labelled transition system whose atomic
steps are exactly the synchronous segments between `await` points.
-/

namespace GithubVec

/-! ## Batch-state management: `processBatchResults` (ingest.ts)

`processBatchResults` receives the downloaded `results` map
(`id → vector`, modelled as an association list with the map's iteration
order) and the batch's stored `items` metadata.  It builds
`itemsMap = new Map(items.map(i => [i.id, i]))` (later duplicates win),
keeps only result entries whose id occurs in `itemsMap`, upserts those
points with payload `{repo_name, content_hash}`, and finally deletes the
batch-state entry iff `toUpsert.length / items.length >= 0.99` or
`items.length < 50`. -/

structure BatchItemMeta where
  id : String
  repo_name : String
  content_hash : String
deriving DecidableEq, Repr

structure Payload where
  repo_name : String
  content_hash : String
deriving DecidableEq, Repr

structure UpsertPoint (V : Type) where
  id : String
  vector : V
  payload : Payload
deriving DecidableEq, Repr

/-- `new Map(items.map(i => [i.id, i])).get(id)`: with duplicate ids the
last occurrence wins, hence the lookup on the reversed list. -/
def itemsMapGet (items : List BatchItemMeta) (id : String) : Option BatchItemMeta :=
  items.reverse.find? (fun m => m.id == id)

/-- `[...results.entries()].filter(([id]) => itemsMap.has(id))`. -/
def toUpsert {V : Type} (results : List (String × V)) (items : List BatchItemMeta) :
    List (String × V) :=
  results.filter (fun p => (itemsMapGet items p.1).isSome)

/-- The points handed to `qdrant.upsert`: each kept entry becomes
`{id, vector, payload: {repo_name, content_hash}}` with the payload taken
from the matching metadata item. -/
def upsertPoints {V : Type} (results : List (String × V)) (items : List BatchItemMeta) :
    List (UpsertPoint V) :=
  results.filterMap (fun p =>
    (itemsMapGet items p.1).map (fun m => ⟨p.1, p.2, ⟨m.repo_name, m.content_hash⟩⟩))

/-- `const successRate = toUpsert.length / items.length` (JS float division;
for `items.length = 0` the JS value is `NaN` and every `>=` comparison on it
is false, matching rational division by zero yielding `0`). -/
def successRate {V : Type} (results : List (String × V)) (items : List BatchItemMeta) : ℚ :=
  mkRat (toUpsert results items).length items.length

/-- `successRate >= 0.99 || isSmallBatch`: the condition under which
`processBatchResults` executes `delete state[batchId]`. -/
def removesFromState {V : Type} (results : List (String × V)) (items : List BatchItemMeta) :
    Bool :=
  decide (successRate results items ≥ mkRat 99 100) || decide (items.length < 50)

/-- The value returned by `processBatchResults` (`toUpsert.length`). -/
def processBatchReturn {V : Type} (results : List (String × V)) (items : List BatchItemMeta) :
    Nat :=
  (toUpsert results items).length

/-- Concrete batch metadata used for the boundary examples: `n` items with
ids `"0"`, …, `toString (n-1)`. -/
def sampleItems (n : Nat) : List BatchItemMeta :=
  (List.range n).map (fun k => ⟨toString k, "owner/repo", "hash"⟩)

/-- Concrete results covering the first `k` of the sample ids. -/
def sampleResults (k : Nat) : List (String × Nat) :=
  (List.range k).map (fun j => (toString j, j))

lemma itemsMapGet_eq_some {items : List BatchItemMeta} {id : String} {m : BatchItemMeta}
    (h : itemsMapGet items id = some m) : m ∈ items ∧ m.id = id := by
  unfold itemsMapGet at h
  have hp := List.find?_some (p := fun m : BatchItemMeta => m.id == id) h
  exact ⟨List.mem_reverse.mp (List.mem_of_find?_eq_some h), eq_of_beq hp⟩

lemma itemsMapGet_isSome (items : List BatchItemMeta) (id : String) :
    (itemsMapGet items id).isSome = items.any (fun m => m.id == id) := by
  unfold itemsMapGet
  rw [Bool.eq_iff_iff]
  simp [List.find?_isSome, List.any_eq_true]

lemma upsertPoints_length {V : Type} (results : List (String × V))
    (items : List BatchItemMeta) :
    (upsertPoints results items).length = (toUpsert results items).length := by
  induction results with
  | nil => rfl
  | cons p rest ih =>
      unfold upsertPoints toUpsert at *
      cases h : itemsMapGet items p.1 with
      | none => simpa [List.filterMap_cons, List.filter_cons, h] using ih
      | some m => simpa [List.filterMap_cons, List.filter_cons, h] using ih

lemma mkRat_le_mkRat_iff (a b : Nat) (hb : 0 < b) :
    mkRat 99 100 ≤ mkRat a b ↔ 99 * b ≤ 100 * a := by
  have hb' : (0 : ℚ) < (b : ℚ) := by exact_mod_cast hb
  rw [Rat.mkRat_eq_div, Rat.mkRat_eq_div]
  rw [div_le_div_iff₀ (by norm_num) hb']
  constructor
  · intro h
    have : (99 : ℚ) * b ≤ 100 * a := by push_cast at h ⊢; linarith
    exact_mod_cast this
  · intro h
    have : (99 : ℚ) * b ≤ 100 * a := by exact_mod_cast h
    push_cast at this ⊢
    linarith

/-- C1.  After a batch's results are upserted, `processBatchResults` deletes
the batch-state entry iff the success rate (upserted count over batch size)
is at least 99% or the batch has fewer than 50 items; in particular a
49-item batch at about 50% success is deleted while a 50-item batch at 98%
success is retained. -/
theorem processBatchResults_state_removal :
    (∀ (V : Type) (results : List (String × V)) (items : List BatchItemMeta),
        removesFromState results items = true ↔
          (99 * items.length ≤ 100 * processBatchReturn results items ∨
            items.length < 50))
    ∧ removesFromState (sampleResults 24) (sampleItems 49) = true
    ∧ removesFromState (sampleResults 49) (sampleItems 50) = false := by
  refine ⟨?_, by decide, by decide⟩
  intro V results items
  unfold removesFromState successRate processBatchReturn
  rcases Nat.eq_zero_or_pos items.length with h0 | hpos
  · simp [h0]
  · rw [Bool.or_eq_true, decide_eq_true_iff, decide_eq_true_iff, ge_iff_le,
      mkRat_le_mkRat_iff _ _ hpos]

/-- C10.  `processBatchResults` upserts exactly the result entries whose id
occurs among the batch's stored items: every upserted point takes its
payload `{repo_name, content_hash}` from a matching metadata item, entries
with unknown ids are never upserted, the kept list is the filter of the
results by id membership, and the success-rate numerator equals the number
of upserted points. -/
theorem processBatchResults_upsert_filtering :
    ∀ (V : Type) (results : List (String × V)) (items : List BatchItemMeta),
      (∀ p ∈ upsertPoints results items,
          ∃ m ∈ items, m.id = p.id ∧ p.payload = ⟨m.repo_name, m.content_hash⟩)
      ∧ (∀ e ∈ results, (∀ m ∈ items, m.id ≠ e.1) →
          ∀ p ∈ upsertPoints results items, p.id ≠ e.1)
      ∧ toUpsert results items =
          results.filter (fun p => items.any (fun m => m.id == p.1))
      ∧ (upsertPoints results items).length = processBatchReturn results items := by
  intro V results items
  have hmem : ∀ p ∈ upsertPoints results items,
      ∃ m ∈ items, m.id = p.id ∧ p.payload = ⟨m.repo_name, m.content_hash⟩ := by
    intro p hp
    unfold upsertPoints at hp
    rcases List.mem_filterMap.mp hp with ⟨e, _, he⟩
    rcases Option.map_eq_some'.mp he with ⟨m, hget, hmk⟩
    rcases itemsMapGet_eq_some hget with ⟨hin, hid⟩
    refine ⟨m, hin, ?_, ?_⟩
    · rw [hid, ← hmk]
    · rw [← hmk]
  refine ⟨hmem, ?_, ?_, upsertPoints_length results items⟩
  · intro e _ hnone p hp heq
    rcases hmem p hp with ⟨m, hin, hid, _⟩
    exact hnone m hin (by rw [hid, heq])
  · unfold toUpsert
    exact List.filter_congr (fun p _ => itemsMapGet_isSome items p.1)

/-- Witness for C10 at a concrete input: the single result `("1", 5)`
against the two sample items is upserted with the matching payload. -/
theorem processBatchResults_upsert_filtering_witness :
    ∃ m ∈ sampleItems 2, m.id = "1" ∧
      (⟨"1", 5, ⟨"owner/repo", "hash"⟩⟩ : UpsertPoint Nat).payload =
        ⟨m.repo_name, m.content_hash⟩ := by
  have h := (processBatchResults_upsert_filtering Nat [("1", 5)] (sampleItems 2)).1
  exact h ⟨"1", 5, ⟨"owner/repo", "hash"⟩⟩ (by decide)

/-! ## `sha1ToUuid` (ingest.ts)

`sha1ToUuid(sha1)` takes the hex digest string, keeps the first 32
characters (`sha1.slice(0, 32)`) and lays them into the canonical
`8-4-4-4-12` UUID grouping.  `loadItems` then sets
`id = sha1ToUuid(content_hash)` where `content_hash` is the SHA-1 hex
digest of the file content, so the id is a pure function of the bytes. -/

/-- Lowercase hexadecimal digit, the alphabet of a SHA-1 hex digest. -/
def isHexChar (c : Char) : Bool :=
  decide ('0' ≤ c ∧ c ≤ '9') || decide ('a' ≤ c ∧ c ≤ 'f')

/-- `s.slice(a, b)` for `0 ≤ a ≤ b` on a JS string. -/
def jsSlice (s : String) (a b : Nat) : String :=
  ⟨(s.data.drop a).take (b - a)⟩

/-- `sha1ToUuid` from `src/scripts/ingest.ts`. -/
def sha1ToUuid (sha1 : String) : String :=
  let h := jsSlice sha1 0 32
  jsSlice h 0 8 ++ "-" ++ jsSlice h 8 12 ++ "-" ++ jsSlice h 12 16 ++ "-" ++
    jsSlice h 16 20 ++ "-" ++ jsSlice h 20 32

/-- The item id computed by `loadItems`, abstracting the SHA-1 hex digest
(`createHash("sha1")...digest("hex")`, an external library call) as a
function from content to its digest string. -/
def itemIdOf (sha1hex : List Char → String) (content : List Char) : String :=
  sha1ToUuid (sha1hex content)

lemma jsSlice_data (s : String) (a b : Nat) :
    (jsSlice s a b).data = (s.data.drop a).take (b - a) := rfl

/-- C6.  The item id is `sha1ToUuid` of the SHA-1 hex digest; `sha1ToUuid`
lays the first 32 hex characters into the canonical `8-4-4-4-12` grouping
(groups of lengths 8, 4, 4, 4, 12 of hex digits whose concatenation is the
first 32 characters of the digest), and the id is a deterministic function
of the content bytes, so byte-identical READMEs share one id. -/
theorem sha1ToUuid_canonical :
    (∀ (hash : String), 32 ≤ hash.data.length →
      (∀ c ∈ hash.data.take 32, isHexChar c = true) →
      ∃ g1 g2 g3 g4 g5 : List Char,
        (sha1ToUuid hash).data =
          g1 ++ '-' :: (g2 ++ '-' :: (g3 ++ '-' :: (g4 ++ '-' :: g5))) ∧
        g1.length = 8 ∧ g2.length = 4 ∧ g3.length = 4 ∧ g4.length = 4 ∧
        g5.length = 12 ∧
        (∀ c ∈ g1 ++ g2 ++ g3 ++ g4 ++ g5, isHexChar c = true) ∧
        g1 ++ g2 ++ g3 ++ g4 ++ g5 = hash.data.take 32)
    ∧ (∀ (sha1hex : List Char → String) (b1 b2 : List Char), b1 = b2 →
        itemIdOf sha1hex b1 = itemIdOf sha1hex b2) := by
  constructor
  · intro hash hlen hhex
    set t := hash.data.take 32 with ht
    have htlen : t.length = 32 := by
      rw [ht, List.length_take]
      omega
    refine ⟨t.take 8, (t.drop 8).take 4, (t.drop 12).take 4, (t.drop 16).take 4,
      (t.drop 20).take 12, ?_, ?_, ?_, ?_, ?_, ?_, ?_, ?_⟩
    · rw [ht]
      simp [sha1ToUuid, jsSlice, List.append_assoc]
    · rw [List.length_take]; omega
    · rw [List.length_take, List.length_drop]; omega
    · rw [List.length_take, List.length_drop]; omega
    · rw [List.length_take, List.length_drop]; omega
    · rw [List.length_take, List.length_drop]; omega
    · intro c hc
      apply hhex
      rw [ht] at hc ⊢
      have base : ∀ (a b : Nat) (l : List Char), c ∈ (l.drop a).take b → c ∈ l :=
        fun a b l h => List.mem_of_mem_drop (List.mem_of_mem_take h)
      rcases List.mem_append.mp hc with hc | hc5
      rcases List.mem_append.mp hc with hc | hc4
      rcases List.mem_append.mp hc with hc | hc3
      rcases List.mem_append.mp hc with hc1 | hc2
      · exact List.mem_of_mem_take hc1
      · exact base 8 4 _ hc2
      · exact base 12 4 _ hc3
      · exact base 16 4 _ hc4
      · exact base 20 12 _ hc5
    · have e12 : t.take 8 ++ (t.drop 8).take 4 = t.take 12 := by
        have h := (List.take_add t 8 4).symm
        norm_num at h
        exact h
      have e16 : t.take 12 ++ (t.drop 12).take 4 = t.take 16 := by
        have h := (List.take_add t 12 4).symm
        norm_num at h
        exact h
      have e20 : t.take 16 ++ (t.drop 16).take 4 = t.take 20 := by
        have h := (List.take_add t 16 4).symm
        norm_num at h
        exact h
      have e32 : t.take 20 ++ (t.drop 20).take 12 = t.take 32 := by
        have h := (List.take_add t 20 12).symm
        norm_num at h
        exact h
      rw [e12, e16, e20, e32, show (32 : Nat) = t.length from htlen.symm,
        List.take_length]
  · intro sha1hex b1 b2 h
    rw [h]

/-- Witness for C6 at a concrete 40-character digest. -/
theorem sha1ToUuid_canonical_witness :
    ∃ g1 g2 g3 g4 g5 : List Char,
      (sha1ToUuid "0123456789abcdef0123456789abcdef01234567").data =
        g1 ++ '-' :: (g2 ++ '-' :: (g3 ++ '-' :: (g4 ++ '-' :: g5))) ∧
      g1.length = 8 ∧ g2.length = 4 ∧ g3.length = 4 ∧ g4.length = 4 ∧
      g5.length = 12 ∧
      (∀ c ∈ g1 ++ g2 ++ g3 ++ g4 ++ g5, isHexChar c = true) ∧
      g1 ++ g2 ++ g3 ++ g4 ++ g5 =
        ("0123456789abcdef0123456789abcdef01234567" : String).data.take 32 :=
  sha1ToUuid_canonical.1 "0123456789abcdef0123456789abcdef01234567"
    (by decide) (by decide)

/-! ## `parseFilename` (ingest.ts)

`parseFilename` splits the README filename on `"_"`, locates the first part
equal to a branch token (`"main"`, `"master"`, `"default"`), rejects the
name when that index is below 2 (JS `findIndex` returns `-1` when absent,
which is also `< 2`), and otherwise returns
`{owner: parts[0], repo: parts.slice(1, branchIdx).join("_")}`. -/

/-- `filename.split("_")` on the character list of a JS string
(single-character separator). -/
def splitSep (sep : Char) : List Char → List (List Char)
  | [] => [[]]
  | c :: cs =>
    match splitSep sep cs with
    | [] => [[c]]
    | p :: ps => if c = sep then [] :: p :: ps else (c :: p) :: ps

/-- `parts.join("_")`, the inverse of `splitSep`. -/
def joinSep (sep : Char) : List (List Char) → List Char
  | [] => []
  | [p] => p
  | p :: ps => p ++ sep :: joinSep sep ps

/-- `p === "main" || p === "master" || p === "default"`. -/
def isBranchToken (p : List Char) : Bool :=
  p == "main".data || p == "master".data || p == "default".data

/-- `parts.findIndex(...)` starting from index `k`, returning `none` in
place of JS `-1`. -/
def findTokenIdxFrom : List (List Char) → Nat → Option Nat
  | [], _ => none
  | p :: ps, k => if isBranchToken p then some k else findTokenIdxFrom ps (k + 1)

def findTokenIdx (parts : List (List Char)) : Option Nat :=
  findTokenIdxFrom parts 0

/-- `parseFilename` from `src/scripts/ingest.ts`. -/
def parseFilename (f : List Char) : Option (List Char × List Char) :=
  let parts := splitSep '_' f
  match findTokenIdx parts with
  | none => none
  | some i =>
      if i < 2 then none
      else some (parts.headI, joinSep '_' ((parts.drop 1).take (i - 1)))

lemma splitSep_ne_nil (sep : Char) (cs : List Char) : splitSep sep cs ≠ [] := by
  cases cs with
  | nil => simp [splitSep]
  | cons c cs =>
      rw [splitSep]
      cases h : splitSep sep cs with
      | nil => simp
      | cons p ps => by_cases hc : c = sep <;> simp [hc]

lemma joinSep_cons_of_ne_nil (sep : Char) (p : List Char) {ps : List (List Char)}
    (h : ps ≠ []) : joinSep sep (p :: ps) = p ++ sep :: joinSep sep ps := by
  cases ps with
  | nil => exact absurd rfl h
  | cons q qs => rfl

lemma joinSep_splitSep (sep : Char) (cs : List Char) :
    joinSep sep (splitSep sep cs) = cs := by
  induction cs with
  | nil => rfl
  | cons c cs ih =>
      rw [splitSep]
      cases h : splitSep sep cs with
      | nil => exact absurd h (splitSep_ne_nil sep cs)
      | cons p ps =>
          rw [h] at ih
          show joinSep sep (if c = sep then [] :: p :: ps else (c :: p) :: ps) = c :: cs
          by_cases hc : c = sep
          · rw [if_pos hc, joinSep_cons_of_ne_nil _ _ (List.cons_ne_nil p ps)]
            simp [ih, hc]
          · simp only [if_neg hc]
            cases ps with
            | nil => simpa [joinSep] using congrArg (c :: ·) ih
            | cons q qs =>
                rw [joinSep_cons_of_ne_nil _ _ (by simp)]
                rw [joinSep_cons_of_ne_nil _ _ (by simp)] at ih
                simpa using congrArg (c :: ·) ih

lemma joinSep_append (sep : Char) :
    ∀ (xs ys : List (List Char)), xs ≠ [] → ys ≠ [] →
      joinSep sep (xs ++ ys) = joinSep sep xs ++ sep :: joinSep sep ys := by
  intro xs
  induction xs with
  | nil => intro ys h; exact absurd rfl h
  | cons x xs ih =>
      intro ys _ hys
      cases xs with
      | nil =>
          rw [List.singleton_append, joinSep_cons_of_ne_nil _ _ hys]
          rfl
      | cons x2 xs2 =>
          rw [List.cons_append, joinSep_cons_of_ne_nil _ _ (by simp),
            joinSep_cons_of_ne_nil _ _ (by simp),
            ih ys (by simp) hys]
          simp

lemma findTokenIdxFrom_bounds :
    ∀ (ps : List (List Char)) (k i : Nat), findTokenIdxFrom ps k = some i →
      k ≤ i ∧ i < k + ps.length := by
  intro ps
  induction ps with
  | nil => intro k i h; simp [findTokenIdxFrom] at h
  | cons p ps ih =>
      intro k i h
      rw [findTokenIdxFrom] at h
      by_cases hp : isBranchToken p
      · rw [if_pos hp] at h
        obtain rfl : k = i := by simpa using h
        simp
      · rw [if_neg hp] at h
        have := ih (k + 1) i h
        simp only [List.length_cons]
        omega

lemma take_one_headI {α : Type} [Inhabited α] {l : List α} (h : l ≠ []) :
    l.take 1 = [l.headI] := by
  cases l with
  | nil => exact absurd rfl h
  | cons a as => rfl

/-- C7.  For every filename whose underscore-split parts contain a branch
token first occurring at index `i ≥ 2`, `parseFilename` returns
`owner = parts[0]` and `repo = parts.slice(1, i).join("_")`, and rejoining
the parts (owner, repo, branch token and remainder) reproduces the original
filename. -/
theorem parseFilename_recovers :
    ∀ (f : List Char) (i : Nat),
      findTokenIdx (splitSep '_' f) = some i → 2 ≤ i →
      ∃ owner repo : List Char,
        parseFilename f = some (owner, repo) ∧
        owner = (splitSep '_' f).headI ∧
        repo = joinSep '_' (((splitSep '_' f).drop 1).take (i - 1)) ∧
        joinSep '_' (splitSep '_' f) = f ∧
        f = owner ++ '_' :: (repo ++ '_' :: joinSep '_' ((splitSep '_' f).drop i)) := by
  intro f i hfind hi
  set parts := splitSep '_' f with hparts
  have hlt : i < parts.length := by
    have := findTokenIdxFrom_bounds parts 0 i hfind
    omega
  have hne : parts ≠ [] := by
    intro h
    rw [h] at hlt
    simp at hlt
  refine ⟨parts.headI, joinSep '_' ((parts.drop 1).take (i - 1)),
    ?_, rfl, rfl, joinSep_splitSep '_' f, ?_⟩
  · simp only [parseFilename]
    rw [← hparts, hfind]
    show (if i < 2 then none else some (parts.headI, _)) = _
    rw [if_neg (by omega)]
  · have hdecomp : parts = parts.take 1 ++ ((parts.drop 1).take (i - 1) ++ parts.drop i) := by
      have h2 : (parts.drop 1).take (i - 1) ++ (parts.drop 1).drop (i - 1) = parts.drop 1 :=
        List.take_append_drop (i - 1) (parts.drop 1)
      have h3 : (parts.drop 1).drop (i - 1) = parts.drop i := by
        rw [List.drop_drop]
        congr 1
        omega
      conv_lhs => rw [← List.take_append_drop 1 parts]
      congr 1
      rw [← h3]
      exact h2.symm
    have hmidne : (parts.drop 1).take (i - 1) ≠ [] := by
      have : ((parts.drop 1).take (i - 1)).length = min (i - 1) (parts.length - 1) := by
        rw [List.length_take, List.length_drop]
      intro hnil
      rw [hnil] at this
      simp only [List.length_nil] at this
      omega
    have hrestne : parts.drop i ≠ [] := by
      intro hnil
      have := List.drop_eq_nil_iff.mp hnil
      omega
    calc f = joinSep '_' parts := (joinSep_splitSep '_' f).symm
    _ = joinSep '_' (parts.take 1 ++ ((parts.drop 1).take (i - 1) ++ parts.drop i)) := by
        rw [← hdecomp]
    _ = joinSep '_' (parts.take 1) ++ '_' ::
          joinSep '_' ((parts.drop 1).take (i - 1) ++ parts.drop i) := by
        rw [joinSep_append '_' _ _ (by rw [take_one_headI hne]; simp)
          (List.append_ne_nil_of_left_ne_nil hmidne _)]
    _ = parts.headI ++ '_' ::
          (joinSep '_' ((parts.drop 1).take (i - 1)) ++ '_' ::
            joinSep '_' (parts.drop i)) := by
        rw [take_one_headI hne, joinSep_append '_' _ _ hmidne hrestne]
        rfl

/-- Witness for C7 at the concrete filename `foo_my_repo_master_README.md`:
the parser recovers owner `foo` and repo `my_repo`. -/
theorem parseFilename_recovers_witness :
    ∃ owner repo : List Char,
      parseFilename "foo_my_repo_master_README.md".data = some (owner, repo) ∧
      owner = (splitSep '_' "foo_my_repo_master_README.md".data).headI ∧
      repo = joinSep '_'
        (((splitSep '_' "foo_my_repo_master_README.md".data).drop 1).take (3 - 1)) ∧
      joinSep '_' (splitSep '_' "foo_my_repo_master_README.md".data) =
        "foo_my_repo_master_README.md".data ∧
      "foo_my_repo_master_README.md".data = owner ++ '_' :: (repo ++ '_' ::
        joinSep '_' ((splitSep '_' "foo_my_repo_master_README.md".data).drop 3)) :=
  parseFilename_recovers "foo_my_repo_master_README.md".data 3 (by decide) (by decide)

/-! ## `ProxyPool.get` (fetch-readmes.ts)

The pool keeps parallel arrays `urls` and `times` (EMA latencies).
`get()` returns `null` on an empty pool; otherwise it draws
`i1 = floor(random * len)` and `i2 = floor(random * len)`, bumps
`i2 = (i2 + 1) % len` when the two draws collide, and returns the url at
the index with the smaller EMA (`times[i1] <= times[i2]` prefers `i1`). -/

/-- The pair of indices used by `ProxyPool.get` given the two random draws
`r1, r2 ∈ [0, len)`. -/
def proxyPick (len r1 r2 : Nat) : Nat × Nat :=
  (r1, if r2 = r1 then (r2 + 1) % len else r2)

/-- `ProxyPool.get` from `src/scripts/fetch-readmes.ts`. -/
def proxyGet (urls : List String) (times : List ℚ) (r1 r2 : Nat) : Option String :=
  if urls.length = 0 then none
  else
    let p := proxyPick urls.length r1 r2
    if times.getD p.1 0 ≤ times.getD p.2 0 then some (urls.getD p.1 "")
    else some (urls.getD p.2 "")

/-- C4 counterexample.  On the non-empty single-proxy pool the two sampled
indices coincide (`i2 = (0 + 1) % 1 = 0 = i1`), so `get` does not pick two
distinct indices as claimed. -/
theorem proxyGet_single_pool_indices_collide :
    (["http://10.0.0.1:8080"] : List String) ≠ [] ∧
    (proxyPick ["http://10.0.0.1:8080"].length 0 0).1 =
      (proxyPick ["http://10.0.0.1:8080"].length 0 0).2 ∧
    proxyGet ["http://10.0.0.1:8080"] [1000] 0 0 = some "http://10.0.0.1:8080" := by
  exact ⟨by decide, by decide, by decide⟩

/-- C4 (amended).  `get` returns `null` exactly when the pool is empty.  On
a non-empty pool, with both random draws in range, the second adjusted index
stays in range and differs from the first whenever the pool has at least two
proxies (with exactly one proxy both indices are `0`); the returned proxy is
the one at the index with the smaller EMA, the first index on ties, so its
EMA is at most the EMA at the other sampled index. -/
theorem proxyGet_power_of_two_choices :
    (∀ (urls : List String) (times : List ℚ) (r1 r2 : Nat),
        proxyGet urls times r1 r2 = none ↔ urls = [])
    ∧ (∀ (urls : List String) (times : List ℚ) (r1 r2 : Nat),
        r1 < urls.length → r2 < urls.length →
        (proxyPick urls.length r1 r2).1 < urls.length ∧
        (proxyPick urls.length r1 r2).2 < urls.length ∧
        (2 ≤ urls.length →
          (proxyPick urls.length r1 r2).1 ≠ (proxyPick urls.length r1 r2).2) ∧
        (let i1 := (proxyPick urls.length r1 r2).1
         let i2 := (proxyPick urls.length r1 r2).2
         let t1 := times.getD i1 0
         let t2 := times.getD i2 0
         proxyGet urls times r1 r2 =
            some (if t1 ≤ t2 then urls.getD i1 "" else urls.getD i2 "") ∧
          (t1 = t2 → proxyGet urls times r1 r2 = some (urls.getD i1 "")) ∧
          (if t1 ≤ t2 then t1 else t2) ≤ t1 ∧
          (if t1 ≤ t2 then t1 else t2) ≤ t2)) := by
  constructor
  · intro urls times r1 r2
    unfold proxyGet
    rcases urls with _ | ⟨u, us⟩
    · simp
    · rw [if_neg (by simp)]
      constructor
      · intro h
        dsimp only at h
        split at h <;> simp at h
      · intro h
        simp at h
  · intro urls times r1 r2 hr1 hr2
    have hlen : urls.length ≠ 0 := by omega
    refine ⟨hr1, ?_, ?_, ?_⟩
    · show (if r2 = r1 then (r2 + 1) % urls.length else r2) < urls.length
      split
      · exact Nat.mod_lt _ (by omega)
      · exact hr2
    · intro h2
      show r1 ≠ if r2 = r1 then (r2 + 1) % urls.length else r2
      split
      · rename_i heq
        subst heq
        intro hcontra
        rcases Nat.lt_or_ge (r2 + 1) urls.length with hlt | hge
        · rw [Nat.mod_eq_of_lt hlt] at hcontra
          omega
        · have : r2 + 1 = urls.length := by omega
          rw [this, Nat.mod_self] at hcontra
          omega
      · rename_i hne
        exact fun hcontra => hne hcontra.symm
    · set i1 := (proxyPick urls.length r1 r2).1 with hi1
      set i2 := (proxyPick urls.length r1 r2).2 with hi2
      set t1 := times.getD i1 0 with ht1
      set t2 := times.getD i2 0 with ht2
      have hget : proxyGet urls times r1 r2 =
          if t1 ≤ t2 then some (urls.getD i1 "") else some (urls.getD i2 "") := by
        unfold proxyGet
        rw [if_neg hlen]
      refine ⟨?_, ?_, ?_, ?_⟩
      · rw [hget]
        split <;> rfl
      · intro hteq
        rw [hget, if_pos (le_of_eq hteq)]
      · split <;> linarith
      · split <;> linarith

/-- Witness for C4: on a two-proxy pool with draws `0, 0` the adjusted
indices are `0` and `1`, the faster proxy (EMA 500 at index 1) is returned,
and its EMA is at most the other index's EMA. -/
theorem proxyGet_power_of_two_choices_witness :
    proxyGet ["http://a:1", "http://b:2"] [1000, 500] 0 0 = some "http://b:2" ∧
    (proxyPick 2 0 0).1 ≠ (proxyPick 2 0 0).2 := by
  have h := (proxyGet_power_of_two_choices).2 ["http://a:1", "http://b:2"]
    [1000, 500] 0 0 (by decide) (by decide)
  refine ⟨?_, h.2.2.1 (by decide)⟩
  have := h.2.2.2.1
  simpa using this

/-! ## Candidate sweep and save decision tree (fetch-readmes.ts)

`tryRawFetch` walks the product `README_NAMES × BRANCHES` in order.  Each
candidate fetch (through `fetchWithRetry`) either errors at the network
layer (recorded as status `0`) or yields an HTTP response; status 200
returns the body at once, 451 short-circuits the repo, any other non-404
status replaces the running `lastStatus`, and 404 leaves it unchanged
(it starts at 404).  `fetchAndSave` then writes exactly one of: an empty
error marker under `<errors>/<statusKey>/<repoFile>` (with the special key
`404_<N>` for N = `README_NAMES.length`), an empty `tooSmall` marker for
content below `MIN_SIZE`, or the README file, truncated to `MAX_CHARS` with
the `\n\n[TRUNCATED]` tail when longer. -/

def MIN_SIZE : Nat := 500
def MAX_CHARS : Nat := 50000

def README_NAMES : List String := ["README.md"]
def BRANCHES : List String := ["master", "main"]

/-- Outcome of one `fetchWithRetry` call for a candidate URL: a network
error after all retries, or an HTTP response with its status and body. -/
inductive Attempt where
  | err
  | resp (status : Nat) (body : List Char)

/-- Result of the inner loop of `tryRawFetch` over the branch list for one
README candidate. -/
inductive BranchSweep where
  | found (content : List Char) (branch : String)
  | dmca
  | cont (lastStatus : Nat)

/-- The inner `for (const branch of BRANCHES)` loop of `tryRawFetch`,
threading `lastStatus`. -/
def sweepBranches (fetch : String → String → Attempt) (readme : String) :
    List String → Nat → BranchSweep
  | [], ls => .cont ls
  | b :: bs, ls =>
    match fetch readme b with
    | .err => sweepBranches fetch readme bs 0
    | .resp s body =>
      if s = 200 then .found body b
      else if s = 451 then .dmca
      else if s ≠ 404 then sweepBranches fetch readme bs s
      else sweepBranches fetch readme bs ls

structure FetchResult where
  content : Option (List Char)
  branch : String
  filename : String
  status : Nat
deriving DecidableEq, Repr

/-- The outer `for (const readme of README_NAMES)` loop of `tryRawFetch`. -/
def sweepReadmes (fetch : String → String → Attempt) :
    List String → Nat → FetchResult
  | [], ls => ⟨none, "", "", ls⟩
  | r :: rs, ls =>
    match sweepBranches fetch r BRANCHES ls with
    | .found c b => ⟨some c, b, r, 200⟩
    | .dmca => ⟨none, "", "", 451⟩
    | .cont ls2 => sweepReadmes fetch rs ls2

/-- `tryRawFetch` from `src/scripts/fetch-readmes.ts` (`lastStatus` starts
at 404). -/
def tryRawFetch (fetch : String → String → Attempt) : FetchResult :=
  sweepReadmes fetch README_NAMES 404

/-- The file writes performed by the decision tree at the end of
`fetchAndSave` (path, content) — exactly one write per fetched repo. -/
def saveActions (outputDir errorsDir repoFile : String) (r : FetchResult) :
    List (String × List Char) :=
  match r.content with
  | none =>
    let statusKey :=
      if r.status = 404 then "404_" ++ toString README_NAMES.length
      else toString r.status
    [(errorsDir ++ "/" ++ statusKey ++ "/" ++ repoFile, [])]
  | some content =>
    if content.length < MIN_SIZE then
      [(errorsDir ++ "/tooSmall/" ++ repoFile, [])]
    else
      let final :=
        if content.length > MAX_CHARS then content.take MAX_CHARS ++ "\n\n[TRUNCATED]".data
        else content
      [(outputDir ++ "/" ++ repoFile ++ "_" ++ r.branch ++ "_" ++ r.filename, final)]

lemma sweepBranches_all_404 (fetch : String → String → Attempt) (readme : String) :
    ∀ (bs : List String) (ls : Nat),
      (∀ b ∈ bs, ∃ body, fetch readme b = .resp 404 body) →
      sweepBranches fetch readme bs ls = .cont ls := by
  intro bs
  induction bs with
  | nil => intro ls _; rfl
  | cons b rest ih =>
      intro ls h
      obtain ⟨body, hb⟩ := h b (by simp)
      rw [sweepBranches, hb]
      show (if 404 = 200 then _ else if 404 = 451 then _
        else if 404 ≠ 404 then _ else sweepBranches fetch readme rest ls) = _
      rw [if_neg (by omega), if_neg (by omega), if_neg (by simp)]
      exact ih ls (fun b2 hb2 => h b2 (by simp [hb2]))

lemma sweepReadmes_all_404 (fetch : String → String → Attempt) :
    ∀ (rs : List String),
      (∀ r ∈ rs, ∀ b ∈ BRANCHES, ∃ body, fetch r b = .resp 404 body) →
      sweepReadmes fetch rs 404 = ⟨none, "", "", 404⟩ := by
  intro rs
  induction rs with
  | nil => intro _; rfl
  | cons r rest ih =>
      intro h
      rw [sweepReadmes, sweepBranches_all_404 fetch r BRANCHES 404
        (fun b hb => h r (by simp) b hb)]
      exact ih (fun r2 hr2 => h r2 (by simp [hr2]))

/-- C2.  When every candidate URL in `README_NAMES × BRANCHES` returns
HTTP 404, `tryRawFetch` reports no content with status 404, and
`fetchAndSave` writes exactly one empty error-marker file at
`<errors>/404_<N>/<owner>_<repo>` where `N = README_NAMES.length`, the
number of README candidates tested during the sweep. -/
theorem fetchAndSave_404_marker :
    ∀ (fetch : String → String → Attempt),
      (∀ r ∈ README_NAMES, ∀ b ∈ BRANCHES, ∃ body, fetch r b = .resp 404 body) →
      ∀ (outputDir errorsDir repoFile : String),
        tryRawFetch fetch = ⟨none, "", "", 404⟩ ∧
        saveActions outputDir errorsDir repoFile (tryRawFetch fetch) =
          [(errorsDir ++ "/404_" ++ toString README_NAMES.length ++ "/" ++ repoFile,
            [])] := by
  intro fetch h outputDir errorsDir repoFile
  have ht : tryRawFetch fetch = ⟨none, "", "", 404⟩ :=
    sweepReadmes_all_404 fetch README_NAMES h
  refine ⟨ht, ?_⟩
  rw [ht]
  show [(errorsDir ++ "/" ++ ("404_" ++ toString README_NAMES.length) ++ "/" ++
    repoFile, ([] : List Char))] = _
  rw [String.append_assoc errorsDir "/" ("404_" ++ toString README_NAMES.length),
    ← String.append_assoc "/" "404_" (toString README_NAMES.length),
    ← String.append_assoc errorsDir ("/" ++ "404_") (toString README_NAMES.length)]
  rfl

/-- Witness for C2: the constant all-404 fetch oracle produces the single
empty `404_1` marker. -/
theorem fetchAndSave_404_marker_witness :
    tryRawFetch (fun _ _ => .resp 404 []) = ⟨none, "", "", 404⟩ ∧
    saveActions "out" "errs" "foo_bar" (tryRawFetch (fun _ _ => .resp 404 [])) =
      [("errs" ++ "/404_" ++ toString README_NAMES.length ++ "/" ++ "foo_bar", [])] :=
  fetchAndSave_404_marker (fun _ _ => .resp 404 [])
    (fun _ _ _ _ => ⟨[], rfl⟩) "out" "errs" "foo_bar"

/-- C5.  For fetched content of length `L`: `L < MIN_SIZE` writes only an
empty `tooSmall` marker; `MIN_SIZE ≤ L ≤ MAX_CHARS` writes the README file
with the content unchanged; `L > MAX_CHARS` writes the first `MAX_CHARS`
characters followed by the literal tail `"\n\n[TRUNCATED]"`.  In
particular length 500 is a success, 499 yields the `tooSmall` marker, and
50001 characters are truncated to 50000 plus the marker tail. -/
theorem fetchAndSave_size_rules :
    (∀ (content : List Char) (branch filename outputDir errorsDir repoFile : String),
      (content.length < 500 →
        saveActions outputDir errorsDir repoFile ⟨some content, branch, filename, 200⟩ =
          [(errorsDir ++ "/tooSmall/" ++ repoFile, [])])
      ∧ (500 ≤ content.length → content.length ≤ 50000 →
        saveActions outputDir errorsDir repoFile ⟨some content, branch, filename, 200⟩ =
          [(outputDir ++ "/" ++ repoFile ++ "_" ++ branch ++ "_" ++ filename, content)])
      ∧ (50000 < content.length →
        saveActions outputDir errorsDir repoFile ⟨some content, branch, filename, 200⟩ =
          [(outputDir ++ "/" ++ repoFile ++ "_" ++ branch ++ "_" ++ filename,
            content.take 50000 ++ "\n\n[TRUNCATED]".data)]))
    ∧ saveActions "o" "e" "f" ⟨some (List.replicate 500 'a'), "master", "README.md", 200⟩ =
        [("o" ++ "/" ++ "f" ++ "_" ++ "master" ++ "_" ++ "README.md",
          List.replicate 500 'a')]
    ∧ saveActions "o" "e" "f" ⟨some (List.replicate 499 'a'), "master", "README.md", 200⟩ =
        [("e" ++ "/tooSmall/" ++ "f", [])]
    ∧ saveActions "o" "e" "f" ⟨some (List.replicate 50001 'a'), "master", "README.md", 200⟩ =
        [("o" ++ "/" ++ "f" ++ "_" ++ "master" ++ "_" ++ "README.md",
          List.replicate 50000 'a' ++ "\n\n[TRUNCATED]".data)] := by
  have main : ∀ (content : List Char) (branch filename outputDir errorsDir repoFile : String),
      (content.length < 500 →
        saveActions outputDir errorsDir repoFile ⟨some content, branch, filename, 200⟩ =
          [(errorsDir ++ "/tooSmall/" ++ repoFile, [])])
      ∧ (500 ≤ content.length → content.length ≤ 50000 →
        saveActions outputDir errorsDir repoFile ⟨some content, branch, filename, 200⟩ =
          [(outputDir ++ "/" ++ repoFile ++ "_" ++ branch ++ "_" ++ filename, content)])
      ∧ (50000 < content.length →
        saveActions outputDir errorsDir repoFile ⟨some content, branch, filename, 200⟩ =
          [(outputDir ++ "/" ++ repoFile ++ "_" ++ branch ++ "_" ++ filename,
            content.take 50000 ++ "\n\n[TRUNCATED]".data)]) := by
    intro content branch filename outputDir errorsDir repoFile
    refine ⟨?_, ?_, ?_⟩
    · intro hsmall
      unfold saveActions MIN_SIZE
      try dsimp only
      rw [if_pos (by exact hsmall)]
    · intro hmin hmax
      unfold saveActions MIN_SIZE MAX_CHARS
      try dsimp only
      rw [if_neg (by omega)]
      try dsimp only
      rw [if_neg (by omega)]
    · intro hbig
      unfold saveActions MIN_SIZE MAX_CHARS
      try dsimp only
      rw [if_neg (by omega)]
      try dsimp only
      rw [if_pos (by omega)]
  refine ⟨main, ?_, ?_, ?_⟩
  · exact (main (List.replicate 500 'a') "master" "README.md" "o" "e" "f").2.1
      (by simp only [List.length_replicate]; omega)
      (by simp only [List.length_replicate]; omega)
  · exact (main (List.replicate 499 'a') "master" "README.md" "o" "e" "f").1
      (by simp only [List.length_replicate]; omega)
  · have h2 := (main (List.replicate 50001 'a') "master" "README.md" "o" "e" "f").2.2
      (by simp only [List.length_replicate]; omega)
    rw [List.take_replicate] at h2
    norm_num at h2
    exact h2

/-- Witness for C5: content of exactly `MIN_SIZE` characters is written
unchanged as a success. -/
theorem fetchAndSave_size_rules_witness :
    saveActions "od" "ed" "rf"
        ⟨some (List.replicate 500 'x'), "main", "README.md", 200⟩ =
      [("od" ++ "/" ++ "rf" ++ "_" ++ "main" ++ "_" ++ "README.md",
        List.replicate 500 'x')] := by
  have h := (fetchAndSave_size_rules.1 (List.replicate 500 'x') "main" "README.md"
    "od" "ed" "rf").2.1
  exact h (by simp only [List.length_replicate]; omega)
    (by simp only [List.length_replicate]; omega)

/-! ## Retry loop of `embedRealtime` (embed.ts)

`embedRealtime` performs one `fetch`; on a non-OK response it retries only
when `retries > 0` and the status is `>= 500` or `=== 429`, sleeping
`(11 - retries) * 2000` ms and recursing with `retries - 1` (the default
initial budget is `retries = 10`); every other non-OK status throws at
once.  The sequence of HTTP statuses returned by the successive requests is
the oracle of the model. -/

/-- `res.ok`: status in the 2xx range. -/
def isOk (status : Nat) : Bool := decide (200 ≤ status) && decide (status < 300)

/-- `res.status >= 500 || res.status === 429`. -/
def shouldRetry (status : Nat) : Bool := decide (500 ≤ status) || decide (status = 429)

/-- `const delay = (11 - retries) * 2000` (milliseconds). -/
def retryDelayMs (retries : Nat) : Nat := (11 - retries) * 2000

inductive EmbedOutcome where
  | ok
  | errorThrown (status : Nat)
  | pending
deriving DecidableEq, Repr

/-- The retry recursion of `embedRealtime` over the status oracle, returning
the outcome and the list of sleep delays performed (in order).  `pending`
marks oracle exhaustion and never arises on a sufficiently long oracle. -/
def embedRun : List Nat → Nat → EmbedOutcome × List Nat
  | [], _ => (.pending, [])
  | s :: rest, retries =>
    if isOk s then (.ok, [])
    else if 0 < retries ∧ shouldRetry s then
      let r := embedRun rest (retries - 1)
      (r.1, retryDelayMs retries :: r.2)
    else (.errorThrown s, [])

/-- Number of HTTP requests issued by `embedRealtime` on the given status
oracle with the given retry budget. -/
def embedCalls : List Nat → Nat → Nat
  | [], _ => 0
  | s :: rest, retries =>
    if isOk s then 1
    else if 0 < retries ∧ shouldRetry s then 1 + embedCalls rest (retries - 1)
    else 1

lemma embedCalls_le (ss : List Nat) : ∀ r, embedCalls ss r ≤ r + 1 := by
  induction ss with
  | nil => intro r; simp [embedCalls]
  | cons s rest ih =>
      intro r
      rw [embedCalls]
      split
      · omega
      · split
        · rename_i h
          have := ih (r - 1)
          omega
        · omega

lemma embedRun_delays_le (ss : List Nat) : ∀ r, (embedRun ss r).2.length ≤ r := by
  induction ss with
  | nil => intro r; simp [embedRun]
  | cons s rest ih =>
      intro r
      rw [embedRun]
      split
      · simp
      · split
        · rename_i h
          have := ih (r - 1)
          simp only [List.length_cons]
          omega
        · simp

lemma embedRun_delays_shape (ss : List Nat) :
    ∀ r, ∀ d ∈ (embedRun ss r).2, ∃ k, 1 ≤ k ∧ k ≤ r ∧ d = retryDelayMs k := by
  induction ss with
  | nil => intro r d hd; simp [embedRun] at hd
  | cons s rest ih =>
      intro r d hd
      rw [embedRun] at hd
      split at hd
      · simp at hd
      · split at hd
        · rename_i h
          simp only [List.mem_cons] at hd
          rcases hd with rfl | hd
          · exact ⟨r, h.1, le_refl r, rfl⟩
          · obtain ⟨k, hk1, hk2, hk3⟩ := ih (r - 1) d hd
            exact ⟨k, hk1, by omega, hk3⟩
        · simp at hd

/-- C8 counterexample.  On an oracle of eleven straight 500 responses the
code issues 11 requests in total (the initial one plus ten retries), so
"up to 10 attempts in total" fails. -/
theorem embedRealtime_eleven_attempts :
    embedCalls (List.replicate 11 500) 10 = 11 ∧ ¬ (11 ≤ 10) := by
  exact ⟨by decide, by decide⟩

/-- C8 (amended).  `embedRealtime` retries only on status `>= 500` or
`429`; with the initial budget of 10 it performs at most 10 retries (hence
at most 11 requests in total), sleeping `(11 - retriesLeft) * 2000` ms
before each retry, every delay being at most 20 s; any other non-OK status
throws immediately with no retry. -/
theorem embedRealtime_retry_policy :
    (∀ ss : List Nat,
        embedCalls ss 10 ≤ 11 ∧
        (embedRun ss 10).2.length ≤ 10 ∧
        (∀ d ∈ (embedRun ss 10).2,
          (∃ k, 1 ≤ k ∧ k ≤ 10 ∧ d = (11 - k) * 2000) ∧ d ≤ 20000))
    ∧ (∀ (s : Nat) (rest : List Nat) (r : Nat), isOk s = false →
        shouldRetry s = false → embedRun (s :: rest) r = (.errorThrown s, []))
    ∧ (∀ (s : Nat) (rest : List Nat) (r : Nat), 2 ≤ embedCalls (s :: rest) r →
        isOk s = false ∧ shouldRetry s = true) := by
  refine ⟨?_, ?_, ?_⟩
  · intro ss
    refine ⟨embedCalls_le ss 10, embedRun_delays_le ss 10, ?_⟩
    intro d hd
    obtain ⟨k, hk1, hk2, hk3⟩ := embedRun_delays_shape ss 10 d hd
    unfold retryDelayMs at hk3
    exact ⟨⟨k, hk1, hk2, hk3⟩, by omega⟩
  · intro s rest r hok hretry
    rw [embedRun, if_neg (by simp [hok]), if_neg (by simp [hretry])]
  · intro s rest r hcalls
    rw [embedCalls] at hcalls
    by_cases hok : isOk s
    · rw [if_pos hok] at hcalls
      omega
    · refine ⟨by simpa using hok, ?_⟩
      by_cases hsr : shouldRetry s
      · exact hsr
      · rw [if_neg hok, if_neg (by simp [hsr])] at hcalls
        omega

/-- Witness for C8: on the all-500 oracle the ten delays are
2, 4, …, 20 seconds, each of the claimed shape and at most 20 s; a 400
response throws immediately. -/
theorem embedRealtime_retry_policy_witness :
    ((embedRun (List.replicate 11 500) 10).2.length ≤ 10 ∧
      embedCalls (List.replicate 11 500) 10 ≤ 11) ∧
    embedRun [400] 7 = (.errorThrown 400, []) ∧
    (isOk 400 = false ∧ shouldRetry 400 = false) := by
  have h1 := (embedRealtime_retry_policy.1 (List.replicate 11 500))
  have h2 := embedRealtime_retry_policy.2.1 400 [] 7 (by decide) (by decide)
  exact ⟨⟨h1.2.1, h1.1⟩, h2, by decide, by decide⟩

/-! ## Top-level error routing of `main` (ingest.ts / embed.ts)

`main().catch(err => ...)` exits with code 0 when the uncaught error is a
`BudgetExhaustedError` (graceful stop, state preserved) and with code 1 on
any other uncaught error; normal completion ends the process with code 0. -/

/-- How the ingestion process ends: normal completion, or an uncaught error
classified by `err instanceof BudgetExhaustedError`. -/
inductive RunOutcome where
  | completed
  | uncaught (isBudgetExhausted : Bool)
deriving DecidableEq, Repr

/-- The exit code produced by the `main().catch` handler of
`src/scripts/ingest.ts`. -/
def mainExitCode : RunOutcome → Nat
  | .completed => 0
  | .uncaught b => if b then 0 else 1

/-- C9.  The process exits 0 on completion and on an uncaught
`BudgetExhaustedError`, and exits 1 on any other uncaught error. -/
theorem mainExitCode_routing :
    mainExitCode .completed = 0 ∧
    mainExitCode (.uncaught true) = 0 ∧
    mainExitCode (.uncaught false) = 1 ∧
    (∀ o : RunOutcome, mainExitCode o = 0 ↔
      (o = .completed ∨ o = .uncaught true)) := by
  refine ⟨rfl, rfl, rfl, ?_⟩
  intro o
  cases o with
  | completed => simp [mainExitCode]
  | uncaught b => cases b <;> simp [mainExitCode]

/-! ## `AsyncBuffer` (ingest.ts)

The buffer is modelled as a labelled transition system.  JavaScript is
single-threaded, so every synchronous segment between `await` points is one
atomic step.  Resolving a promise only schedules its continuation, so a
woken producer/consumer is parked in `wokenProducers`/`wokenConsumers`
until a separate resume step runs its continuation; in particular
`releaseProducers`'s loop runs with `items.length` fixed, waking either all
waiting producers (when `items.length < maxSize`) or none.

Ghost counters: `pushed` counts `push(x)` calls initiated, `added` counts
items appended to `items`, `consumed` counts items handed back by completed
`pull()`s. -/

structure BufCfg where
  maxSize : Nat
  batchSize : Nat
deriving DecidableEq, Repr

structure BufState (T : Type) where
  items : List T
  waitingProducers : List T
  waitingConsumers : Nat
  wokenConsumers : List (List T)
  wokenProducers : List T
  done : Bool
  pushed : Nat
  added : Nat
  consumed : Nat
deriving DecidableEq, Repr

def initBuf (T : Type) : BufState T :=
  ⟨[], [], 0, [], [], false, 0, 0, 0⟩

/-- `releaseProducers()`: the loop condition only reads `items.length`,
which is constant while it runs, so it wakes all waiting producers exactly
when `items.length < maxSize`. -/
def releaseProducers (cfg : BufCfg) {T : Type} (s : BufState T) : BufState T :=
  if s.items.length < cfg.maxSize then
    { s with wokenProducers := s.wokenProducers ++ s.waitingProducers,
             waitingProducers := [] }
  else s

/-- `tryFlush()`: when a full batch is available and a consumer waits,
splice off the batch, resolve the first waiting consumer with it, and
release producers. -/
def tryFlush (cfg : BufCfg) {T : Type} (s : BufState T) : BufState T :=
  if cfg.batchSize ≤ s.items.length ∧ 0 < s.waitingConsumers then
    releaseProducers cfg
      { s with items := s.items.drop cfg.batchSize,
               waitingConsumers := s.waitingConsumers - 1,
               wokenConsumers := s.wokenConsumers ++ [s.items.take cfg.batchSize] }
  else s

/-- The body of `push` after its wait loop: `if (done) return;` then append
and `tryFlush`. -/
def pushBody (cfg : BufCfg) {T : Type} (s : BufState T) (x : T) : BufState T :=
  if s.done then s
  else tryFlush cfg { s with items := s.items ++ [x], added := s.added + 1 }

/-- The value returned by `drain()`. -/
def drainResult (cfg : BufCfg) {T : Type} (s : BufState T) : Option (List T) :=
  if s.items.isEmpty then (if s.done then none else some [])
  else some (s.items.take cfg.batchSize)

/-- The state after `drain()` (splice off a batch and release producers),
recording the returned items in `consumed`. -/
def drainState (cfg : BufCfg) {T : Type} (s : BufState T) : BufState T :=
  if s.items.isEmpty then s
  else
    releaseProducers cfg
      { s with items := s.items.drop cfg.batchSize,
               consumed := s.consumed + (s.items.take cfg.batchSize).length }

/-- `finish()`: set `done`, resolve every waiting consumer with an empty
batch, clear the waiting list, release producers. -/
def finishState (cfg : BufCfg) {T : Type} (s : BufState T) : BufState T :=
  releaseProducers cfg
    { s with done := true, waitingConsumers := 0,
             wokenConsumers := s.wokenConsumers ++ List.replicate s.waitingConsumers [] }

/-- A released producer resumes at the top of `push`'s wait loop: it blocks
again when the buffer is still full and not done, returns without appending
when `done`, and otherwise appends and flushes. -/
def resumeProducerState (cfg : BufCfg) {T : Type} (s : BufState T) (x : T) : BufState T :=
  if cfg.maxSize ≤ s.items.length ∧ s.done = false then
    { s with waitingProducers := s.waitingProducers ++ [x] }
  else pushBody cfg s x

/-- What a woken consumer's continuation returns: `some r` means the pull
returns `r`; `none` means it blocks again. -/
def resumeConsumerResult (cfg : BufCfg) {T : Type} (s : BufState T) (b : List T) :
    Option (Option (List T)) :=
  if b.isEmpty = false then some (some b)
  else if s.done = true ∧ s.items.isEmpty = true then some none
  else if s.items.length < cfg.batchSize ∧ s.done = false then none
  else some (drainResult cfg s)

def resumeConsumerState (cfg : BufCfg) {T : Type} (s : BufState T) (b : List T) :
    BufState T :=
  if b.isEmpty = false then { s with consumed := s.consumed + b.length }
  else if s.done = true ∧ s.items.isEmpty = true then s
  else if s.items.length < cfg.batchSize ∧ s.done = false then
    { s with waitingConsumers := s.waitingConsumers + 1 }
  else drainState cfg s

inductive BufEvent (T : Type) where
  | pushBlocked (x : T)
  | pushReturned (x : T)
  | pullBlocked
  | pullReturned (r : Option (List T))
  | finished
  | producerResumed (x : T)
  | consumerResumed (b : List T) (r : Option (Option (List T)))

/-- One atomic step of the `AsyncBuffer`, labelled by its observable
event. -/
inductive Step (cfg : BufCfg) {T : Type} : BufState T → BufEvent T → BufState T → Prop where
  | pushBlock (s : BufState T) (x : T)
      (hfull : cfg.maxSize ≤ s.items.length) (hdone : s.done = false) :
      Step cfg s (.pushBlocked x)
        { s with waitingProducers := s.waitingProducers ++ [x], pushed := s.pushed + 1 }
  | pushRet (s : BufState T) (x : T)
      (hfree : s.items.length < cfg.maxSize ∨ s.done = true) :
      Step cfg s (.pushReturned x) (pushBody cfg { s with pushed := s.pushed + 1 } x)
  | pullBlock (s : BufState T)
      (hlow : s.items.length < cfg.batchSize) (hdone : s.done = false) :
      Step cfg s .pullBlocked { s with waitingConsumers := s.waitingConsumers + 1 }
  | pullRet (s : BufState T)
      (hready : cfg.batchSize ≤ s.items.length ∨ s.done = true) :
      Step cfg s (.pullReturned (drainResult cfg s)) (drainState cfg s)
  | finish (s : BufState T) :
      Step cfg s .finished (finishState cfg s)
  | producerResume (s : BufState T) (x : T) (rest : List T)
      (hw : s.wokenProducers = x :: rest) :
      Step cfg s (.producerResumed x)
        (resumeProducerState cfg { s with wokenProducers := rest } x)
  | consumerResume (s : BufState T) (b : List T) (rest : List (List T))
      (hw : s.wokenConsumers = b :: rest) :
      Step cfg s
        (.consumerResumed b (resumeConsumerResult cfg { s with wokenConsumers := rest } b))
        (resumeConsumerState cfg { s with wokenConsumers := rest } b)

inductive ReachBuf (cfg : BufCfg) {T : Type} : BufState T → Prop where
  | init : ReachBuf cfg (initBuf T)
  | step {s : BufState T} {e : BufEvent T} {s2 : BufState T} :
      ReachBuf cfg s → Step cfg s e s2 → ReachBuf cfg s2

/-- Total length of the batches already handed to woken consumers but not
yet returned. -/
def wokenSum {T : Type} (s : BufState T) : Nat :=
  (s.wokenConsumers.map List.length).sum

/-- The inductive invariant of the buffer. -/
def BufInv (cfg : BufCfg) {T : Type} (s : BufState T) : Prop :=
  s.items.length ≤ cfg.maxSize ∧
  s.added = s.consumed + s.items.length + wokenSum s ∧
  s.added + s.waitingProducers.length + s.wokenProducers.length ≤ s.pushed ∧
  (s.done = true → s.waitingConsumers = 0)

lemma isEmpty_eq_nil {α : Type} {l : List α} (h : ¬ l.isEmpty = false) : l = [] := by
  cases l with
  | nil => rfl
  | cons a as => simp [List.isEmpty] at h

lemma releaseProducers_inv (cfg : BufCfg) {T : Type} {s : BufState T}
    (h : BufInv cfg s) : BufInv cfg (releaseProducers cfg s) := by
  obtain ⟨h1, h2, h3, h4⟩ := h
  unfold releaseProducers
  split
  · refine ⟨h1, h2, ?_, h4⟩
    show s.added + (0 : Nat) + (s.wokenProducers ++ s.waitingProducers).length ≤ s.pushed
    rw [List.length_append]
    omega
  · exact ⟨h1, h2, h3, h4⟩

lemma tryFlush_inv (cfg : BufCfg) {T : Type} {s : BufState T}
    (h : BufInv cfg s) : BufInv cfg (tryFlush cfg s) := by
  obtain ⟨h1, h2, h3, h4⟩ := h
  unfold tryFlush
  split
  · rename_i hc
    apply releaseProducers_inv
    unfold BufInv wokenSum at *
    refine ⟨?_, ?_, ?_, ?_⟩ <;> dsimp only
    · rw [List.length_drop]
      omega
    · simp only [List.map_append, List.sum_append, List.map_cons, List.map_nil,
        List.sum_cons, List.sum_nil, List.length_drop, List.length_take]
      omega
    · exact h3
    · intro hdone
      rw [h4 hdone]
  · exact ⟨h1, h2, h3, h4⟩

lemma pushBody_inv (cfg : BufCfg) {T : Type} {s : BufState T} (x : T)
    (h1 : s.items.length ≤ cfg.maxSize)
    (h2 : s.added = s.consumed + s.items.length + wokenSum s)
    (h3 : s.added + 1 + s.waitingProducers.length + s.wokenProducers.length ≤ s.pushed)
    (h4 : s.done = true → s.waitingConsumers = 0)
    (hfree : s.items.length < cfg.maxSize ∨ s.done = true) :
    BufInv cfg (pushBody cfg s x) := by
  unfold pushBody
  split
  · exact ⟨h1, h2, by omega, h4⟩
  · rename_i hdone
    have hlen : s.items.length < cfg.maxSize := by
      rcases hfree with h | h
      · exact h
      · exact absurd h hdone
    apply tryFlush_inv
    refine ⟨?_, ?_, ?_, ?_⟩
    · show (s.items ++ [x]).length ≤ cfg.maxSize
      rw [List.length_append]
      simp only [List.length_cons, List.length_nil]
      omega
    · show s.added + 1 = s.consumed + (s.items ++ [x]).length + wokenSum s
      rw [List.length_append]
      simp only [List.length_cons, List.length_nil]
      omega
    · show s.added + 1 + s.waitingProducers.length + s.wokenProducers.length ≤ s.pushed
      exact h3
    · exact h4

lemma drainState_inv (cfg : BufCfg) {T : Type} {s : BufState T}
    (h : BufInv cfg s) : BufInv cfg (drainState cfg s) := by
  obtain ⟨h1, h2, h3, h4⟩ := h
  unfold drainState
  split
  · exact ⟨h1, h2, h3, h4⟩
  · apply releaseProducers_inv
    refine ⟨?_, ?_, h3, h4⟩
    · show (s.items.drop cfg.batchSize).length ≤ cfg.maxSize
      rw [List.length_drop]
      omega
    · show s.added = s.consumed + (s.items.take cfg.batchSize).length +
        (s.items.drop cfg.batchSize).length + wokenSum s
      rw [List.length_drop, List.length_take]
      omega

lemma finishState_inv (cfg : BufCfg) {T : Type} {s : BufState T}
    (h : BufInv cfg s) : BufInv cfg (finishState cfg s) := by
  obtain ⟨h1, h2, h3, h4⟩ := h
  unfold finishState
  apply releaseProducers_inv
  unfold BufInv wokenSum at *
  refine ⟨?_, ?_, ?_, ?_⟩ <;> dsimp only
  · exact h1
  · simp only [List.map_append, List.sum_append, List.map_replicate,
      List.length_nil, List.sum_replicate, smul_zero]
    omega
  · exact h3
  · intro _
    rfl

lemma step_inv (cfg : BufCfg) {T : Type} {s s2 : BufState T} {e : BufEvent T}
    (hinv : BufInv cfg s) (hstep : Step cfg s e s2) : BufInv cfg s2 := by
  obtain ⟨h1, h2, h3, h4⟩ := hinv
  cases hstep with
  | pushBlock x hfull hdone =>
      unfold BufInv
      refine ⟨?_, ?_, ?_, ?_⟩ <;> dsimp only
      · exact h1
      · exact h2
      · rw [List.length_append]
        simp only [List.length_cons, List.length_nil]
        omega
      · intro hd
        exact h4 hd
  | pushRet x hfree =>
      apply pushBody_inv (s := { s with pushed := s.pushed + 1 }) cfg x
      · exact h1
      · exact h2
      · dsimp only
        omega
      · exact h4
      · exact hfree
  | pullBlock hlow hdone =>
      unfold BufInv
      refine ⟨h1, h2, h3, ?_⟩
      dsimp only
      rw [hdone]
      intro hd
      exact absurd hd (by simp)
  | pullRet hready =>
      exact drainState_inv cfg ⟨h1, h2, h3, h4⟩
  | finish =>
      exact finishState_inv cfg ⟨h1, h2, h3, h4⟩
  | producerResume x rest hw =>
      have h3a : s.added + s.waitingProducers.length + (rest.length + 1) ≤ s.pushed := by
        rw [hw] at h3
        simpa using h3
      unfold resumeProducerState
      split
      · unfold BufInv
        refine ⟨h1, h2, ?_, ?_⟩ <;> dsimp only
        · rw [List.length_append]
          simp only [List.length_cons, List.length_nil]
          omega
        · intro hd
          exact h4 hd
      · rename_i hcond
        apply pushBody_inv (s := { s with wokenProducers := rest }) cfg x
        · exact h1
        · exact h2
        · dsimp only
          omega
        · exact h4
        · rcases Bool.eq_false_or_eq_true s.done with hd | hd
          · right
            exact hd
          · left
            dsimp only
            by_contra hlen
            exact hcond ⟨by dsimp only; omega, hd⟩
  | consumerResume b rest hw =>
      have hsum : wokenSum s = b.length + (rest.map List.length).sum := by
        unfold wokenSum
        rw [hw]
        simp
      unfold resumeConsumerState
      split
      · unfold BufInv wokenSum
        refine ⟨h1, ?_, h3, h4⟩
        dsimp only
        omega
      · rename_i hbe
        have hb : b = [] := isEmpty_eq_nil (by simpa using hbe)
        rw [hb] at hsum
        simp only [List.length_nil, Nat.zero_add] at hsum
        split
        · unfold BufInv wokenSum
          refine ⟨h1, ?_, h3, h4⟩
          dsimp only
          omega
        · split
          · rename_i hcond
            unfold BufInv wokenSum
            refine ⟨h1, ?_, h3, ?_⟩ <;> dsimp only
            · omega
            · rw [hcond.2]
              intro hd
              exact absurd hd (by simp)
          · apply drainState_inv
            unfold BufInv wokenSum
            refine ⟨h1, ?_, h3, h4⟩
            dsimp only
            omega

lemma reach_inv (cfg : BufCfg) {T : Type} {s : BufState T}
    (h : ReachBuf cfg s) : BufInv cfg s := by
  induction h with
  | init => exact ⟨by simp [initBuf], by simp [initBuf, wokenSum], by simp [initBuf],
      by simp [initBuf]⟩
  | step _ hstep ih => exact step_inv cfg ih hstep

lemma releaseProducers_added (cfg : BufCfg) {T : Type} (s : BufState T) :
    (releaseProducers cfg s).added = s.added := by
  unfold releaseProducers
  split <;> rfl

lemma drainState_added (cfg : BufCfg) {T : Type} (s : BufState T) :
    (drainState cfg s).added = s.added := by
  unfold drainState
  split
  · rfl
  · rw [releaseProducers_added]

/-- C3.  On every reachable buffer state: the internal item list never
exceeds `maxSize`; once `done` is set no step appends a pushed item; the
total items returned across pulls never exceed the total pushed; after
`finish` and drain-to-empty a new pull returns `null` immediately and a
consumer woken with the empty batch observes `null` on resumption; and
`finish` itself wakes every blocked consumer with an empty batch as the
termination signal. -/
theorem asyncBuffer_invariants :
    ∀ (T : Type) (cfg : BufCfg) (s : BufState T), ReachBuf cfg s →
      s.items.length ≤ cfg.maxSize ∧
      s.consumed ≤ s.pushed ∧
      (s.done = true → ∀ (e : BufEvent T) (s2 : BufState T), Step cfg s e s2 →
        s2.added = s.added) ∧
      (s.done = true → s.items = [] →
        (∀ (r : Option (List T)) (s2 : BufState T),
            Step cfg s (.pullReturned r) s2 → r = none) ∧
        (∀ (r : Option (Option (List T))) (s2 : BufState T),
            Step cfg s (.consumerResumed [] r) s2 → r = some none)) ∧
      (∀ s2 : BufState T, Step cfg s .finished s2 →
        s2.wokenConsumers = s.wokenConsumers ++ List.replicate s.waitingConsumers [] ∧
        s2.waitingConsumers = 0 ∧ s2.done = true) := by
  intro T cfg s hreach
  obtain ⟨h1, h2, h3, h4⟩ := reach_inv cfg hreach
  refine ⟨h1, by omega, ?_, ?_, ?_⟩
  · intro hdone e s2 hstep
    cases hstep with
    | pushBlock x hfull hdone2 => rfl
    | pushRet x hfree => simp [pushBody, hdone]
    | pullBlock hlow hdone2 => rfl
    | pullRet hready => rw [drainState_added]
    | finish => exact (releaseProducers_added cfg _).trans rfl
    | producerResume x rest hw =>
        unfold resumeProducerState
        rw [if_neg (by simp [hdone])]
        simp [pushBody, hdone]
    | consumerResume b rest hw =>
        unfold resumeConsumerState
        split
        · rfl
        · split
          · rfl
          · split
            · rfl
            · rw [drainState_added]
  · intro hdone hitems
    constructor
    · intro r s2 hstep
      cases hstep with
      | pullRet hready => simp [drainResult, hitems, hdone]
    · intro r s2 hstep
      cases hstep with
      | consumerResume b rest hw => simp [resumeConsumerResult, hitems, hdone]
  · intro s2 hstep
    cases hstep with
    | finish =>
        unfold finishState releaseProducers
        split <;> exact ⟨rfl, rfl, rfl⟩

/-- Witness for C3: after one `finish` step from the empty initial buffer
(`maxSize = 2`, `batchSize = 1`), a pull on the drained finished buffer
returns `null`. -/
theorem asyncBuffer_invariants_witness :
    drainResult ⟨2, 1⟩ (finishState ⟨2, 1⟩ (initBuf Nat)) = none := by
  have h := asyncBuffer_invariants Nat ⟨2, 1⟩ (finishState ⟨2, 1⟩ (initBuf Nat))
    (ReachBuf.step ReachBuf.init (Step.finish (initBuf Nat)))
  exact (h.2.2.2.1 (by rfl) (by rfl)).1 _ (drainState ⟨2, 1⟩ _)
    (Step.pullRet _ (Or.inr (by rfl)))

end GithubVec
